/-
Verification of the storage and reconciliation core of the
extensions-update-tracker browser extension.

The development shallowly embeds the following source modules:
  * `src/background/extensions-update-storage.ts` — the queued update-history
    store (`performSave`, `performRemove`, `performMarkAsRead`,
    `performMarkAllAsRead`);
  * `src/background/notification-state-storage.ts` — the notification
    interaction state store (`saveState`, `cleanupExpiredStates`,
    `cleanupOrphanedStates`, `getState`);
  * `src/background/extensions-management.ts` — the reconciliation pass
    (`reconcileVersions`);
  * `src/background/storage-service.ts` — the validated key-value store
    (`StorageService.get`, `deepMerge`).

JavaScript objects used as string-keyed tables are embedded as association
lists (`List (String × α)`) preserving insertion order; JS `undefined` on
optional fields is embedded as `Option.none`; millisecond timestamps are
embedded as `Int` (JS numbers are exact on these magnitudes).
-/
import Mathlib

/-! ## String-keyed tables (JS objects used as maps) -/

/-- First-match lookup in an association list, the embedding of `obj[key]`
(returning `none` for JS `undefined`). -/
def lookupKey {α : Type} : List (String × α) → String → Option α
  | [], _ => none
  | (k, v) :: rest, key => if k = key then some v else lookupKey rest key

/-- The embedding of `obj[key] = value`: replace the value at an existing key
in place (preserving its position) or append the binding at the end,
matching JS property-assignment order semantics. -/
def setKey {α : Type} : List (String × α) → String → α → List (String × α)
  | [], key, v => [(key, v)]
  | (k, w) :: rest, key, v =>
      if k = key then (key, v) :: rest else (k, w) :: setKey rest key v

/-- The embedding of `delete obj[key]`. -/
def eraseKey {α : Type} (l : List (String × α)) (key : String) : List (String × α) :=
  l.filter (fun e => e.1 ≠ key)

theorem lookupKey_setKey_self {α : Type} (l : List (String × α)) (k : String) (v : α) :
    lookupKey (setKey l k v) k = some v := by
  induction l with
  | nil => simp [setKey, lookupKey]
  | cons e rest ih =>
      obtain ⟨k1, v1⟩ := e
      by_cases h : k1 = k
      · simp [setKey, lookupKey, h]
      · simp [setKey, lookupKey, h, ih]

theorem lookupKey_setKey_ne {α : Type} (l : List (String × α)) (k k' : String) (v : α)
    (h : k' ≠ k) : lookupKey (setKey l k v) k' = lookupKey l k' := by
  have hkk : ¬ k = k' := fun hh => h hh.symm
  induction l with
  | nil => simp [setKey, lookupKey, hkk]
  | cons e rest ih =>
      obtain ⟨k1, v1⟩ := e
      by_cases he : k1 = k
      · subst he
        simp [setKey, lookupKey, hkk]
      · simp only [setKey, if_neg he, lookupKey]
        by_cases he' : k1 = k'
        · simp [he']
        · simp [he', ih]

theorem lookupKey_mem {α : Type} {l : List (String × α)} {k : String} {v : α}
    (h : lookupKey l k = some v) : (k, v) ∈ l := by
  induction l with
  | nil => simp [lookupKey] at h
  | cons e rest ih =>
      obtain ⟨k1, v1⟩ := e
      by_cases he : k1 = k
      · simp only [lookupKey, if_pos he] at h
        cases h
        subst he
        exact List.mem_cons_self _ _
      · simp only [lookupKey, if_neg he] at h
        exact List.mem_cons_of_mem _ (ih h)

theorem lookupKey_filter {α : Type} {p : String × α → Bool} {l : List (String × α)}
    {k : String} {v : α} (h : lookupKey (l.filter p) k = some v) :
    p (k, v) = true := by
  induction l with
  | nil => simp [lookupKey] at h
  | cons e rest ih =>
      obtain ⟨k1, v1⟩ := e
      by_cases hp : p (k1, v1) = true
      · rw [List.filter_cons_of_pos hp] at h
        by_cases he : k1 = k
        · simp only [lookupKey, if_pos he] at h
          cases h
          subst he
          exact hp
        · simp only [lookupKey, if_neg he] at h
          exact ih h
      · rw [List.filter_cons_of_neg (by simpa using hp)] at h
        exact ih h

theorem lookupKey_filter_none {α : Type} {p : String × α → Bool} {l : List (String × α)}
    {k : String} (h : ∀ v, (k, v) ∈ l → p (k, v) = false) :
    lookupKey (l.filter p) k = none := by
  induction l with
  | nil => rfl
  | cons e rest ih =>
      have ihr : lookupKey (rest.filter p) k = none :=
        ih (fun v hv => h v (List.mem_cons_of_mem _ hv))
      obtain ⟨k1, v1⟩ := e
      by_cases hp : p (k1, v1) = true
      · rw [List.filter_cons_of_pos hp]
        by_cases he : k1 = k
        · exfalso
          subst he
          rw [h v1 (List.mem_cons_self _ _)] at hp
          exact Bool.false_ne_true hp
        · simpa [lookupKey, he] using ihr
      · rw [List.filter_cons_of_neg (by simpa using hp)]
        exact ihr

theorem lookupKey_filter_keyPred {α : Type} (q : String → Bool) (l : List (String × α))
    (k : String) :
    lookupKey (l.filter (fun e => q e.1)) k = if q k then lookupKey l k else none := by
  induction l with
  | nil => cases hq : q k <;> simp [lookupKey, hq]
  | cons e rest ih =>
      obtain ⟨k1, v1⟩ := e
      by_cases he : k1 = k
      · subst he
        cases hq : q k1 <;> simp [List.filter_cons, lookupKey, hq, ih]
      · cases hq : q k1 <;> simp [List.filter_cons, lookupKey, hq, he, ih]

theorem lookupKey_eraseKey_self {α : Type} (l : List (String × α)) (k : String) :
    lookupKey (eraseKey l k) k = none := by
  induction l with
  | nil => rfl
  | cons e rest ih =>
      obtain ⟨k1, v1⟩ := e
      by_cases he : k1 = k
      · simpa [eraseKey, List.filter_cons, he] using ih
      · simpa [eraseKey, List.filter_cons, he, lookupKey] using ih

theorem lookupKey_eraseKey_ne {α : Type} (l : List (String × α)) (k k' : String)
    (h : k' ≠ k) : lookupKey (eraseKey l k) k' = lookupKey l k' := by
  have hkk : ¬ k = k' := fun hh => h hh.symm
  induction l with
  | nil => rfl
  | cons e rest ih =>
      obtain ⟨k1, v1⟩ := e
      by_cases he : k1 = k
      · subst he
        simpa [eraseKey, List.filter_cons, lookupKey, hkk] using ih
      · by_cases he' : k1 = k'
        · subst he'
          simp [eraseKey, List.filter_cons, he, lookupKey, h]
        · simpa [eraseKey, List.filter_cons, he, lookupKey, he'] using ih

/-! ## Update History Store (`extensions-update-storage.ts`) -/

/-- Icon metadata, from `IconSchema`. -/
structure Icon where
  size : Int
  url : String
  deriving Repr, DecidableEq

/-- Snapshot of extension metadata captured at detection time, from
`ExtensionInfoSnapshotSchema`. Optional fields are `Option` (JS `undefined`
maps to `none`). Enum-like string unions are embedded as `String`. -/
structure ExtensionInfoSnapshot where
  name : String
  shortName : Option String
  description : Option String
  version : String
  versionName : Option String
  enabled : Option Bool
  mayDisable : Option Bool
  disabledReason : Option String
  type : Option String
  homepageUrl : Option String
  updateUrl : Option String
  optionsUrl : Option String
  icons : Option (List Icon)
  permissions : Option (List String)
  hostPermissions : Option (List String)
  installType : Option String
  deriving Repr, DecidableEq

/-- The fields of `Management.ExtensionInfo` consumed by the tracker. -/
structure ExtensionInfo where
  id : String
  name : String
  version : String
  shortName : Option String := none
  description : Option String := none
  versionName : Option String := none
  enabled : Option Bool := none
  mayDisable : Option Bool := none
  disabledReason : Option String := none
  type : Option String := none
  homepageUrl : Option String := none
  updateUrl : Option String := none
  optionsUrl : Option String := none
  icons : Option (List Icon) := none
  permissions : Option (List String) := none
  hostPermissions : Option (List String) := none
  installType : Option String := none
  deriving Repr, DecidableEq

/-- The `infoSnapshot` object literal built inside `performSave`. -/
def buildInfoSnapshot (info : ExtensionInfo) : ExtensionInfoSnapshot :=
  { name := info.name
    shortName := info.shortName
    description := info.description
    version := info.version
    versionName := info.versionName
    enabled := info.enabled
    mayDisable := info.mayDisable
    disabledReason := info.disabledReason
    type := info.type
    homepageUrl := info.homepageUrl
    updateUrl := info.updateUrl
    optionsUrl := info.optionsUrl
    icons := (info.icons).map (fun l => l.map (fun icon => { size := icon.size, url := icon.url }))
    permissions := info.permissions
    hostPermissions := info.hostPermissions
    installType := info.installType }

/-- One version-detection event, from `ExtensionVersionInfoSchema`.
`isRead`, `previousVersion` and `infoSnapshot` are optional. -/
structure ExtensionVersionInfo where
  version : String
  detectedTimestampMs : Int
  isRead : Option Bool := none
  previousVersion : Option String := none
  infoSnapshot : Option ExtensionInfoSnapshot := none
  deriving Repr, DecidableEq

/-- Per-extension record, from `ExtensionsUpdateStorageSchema`. -/
structure ExtensionRecord where
  currentVersion : String
  updateHistory : List ExtensionVersionInfo
  deriving Repr, DecidableEq

/-- The persisted update-history table, a JS object keyed by extension id. -/
abbrev UpdateTable := List (String × ExtensionRecord)

/-- `ExtensionsUpdateStorage.MAX_HISTORY_ENTRIES`. -/
def MAX_HISTORY_ENTRIES : Nat := 100

/-- JS truthiness of the optional `isRead` flag: `!entry.isRead` holds when
the field is `undefined` or `false`. -/
def readFlag (e : ExtensionVersionInfo) : Bool := e.isRead.getD false

/-- The embedding of `history.slice(-MAX_HISTORY_ENTRIES)`: keep the last
`MAX_HISTORY_ENTRIES` entries (all of them when there are fewer). -/
def trimHistory (h : List ExtensionVersionInfo) : List ExtensionVersionInfo :=
  h.drop (h.length - MAX_HISTORY_ENTRIES)

/-- The history update performed by `performSave` on an existing record's
history.  The tail entry is located with `history[history.length - 1]`; a
same-version tail is updated in place (timestamp and snapshot only), any
other case — including an empty history, where `last` is `undefined` and
`last?.version` is `undefined` — appends a new entry whose `previousVersion`
is the old tail's version. -/
def updatedHistory (history : List ExtensionVersionInfo) (info : ExtensionInfo)
    (now : Int) : List ExtensionVersionInfo :=
  let infoSnapshot := buildInfoSnapshot info
  match history.getLast? with
  | some last =>
      if last.version = info.version then
        let updatedEntry : ExtensionVersionInfo :=
          { last with detectedTimestampMs := now, infoSnapshot := some infoSnapshot }
        history.set (history.length - 1) updatedEntry
      else
        let historyEntry : ExtensionVersionInfo :=
          { version := info.version
            detectedTimestampMs := now
            previousVersion := some last.version
            infoSnapshot := some infoSnapshot }
        history ++ [historyEntry]
  | none =>
      let historyEntry : ExtensionVersionInfo :=
        { version := info.version
          detectedTimestampMs := now
          previousVersion := none
          infoSnapshot := some infoSnapshot }
      history ++ [historyEntry]

/-- The body of `ExtensionsUpdateStorage.performSave`, as a pure function of
the freshly-read table, the incoming extension info and the current time
(`Date.now()`).  An existing record's history goes through `updatedHistory`
and is trimmed to the last `MAX_HISTORY_ENTRIES` entries, and
`currentVersion` is set to the incoming version; an absent record gets a
fresh one-entry history. -/
def performSave (tbl : UpdateTable) (info : ExtensionInfo) (now : Int) : UpdateTable :=
  match lookupKey tbl info.id with
  | some existing =>
      setKey tbl info.id
        { currentVersion := info.version
          updateHistory := trimHistory (updatedHistory existing.updateHistory info now) }
  | none =>
      setKey tbl info.id
        { currentVersion := info.version
          updateHistory := [{ version := info.version
                              detectedTimestampMs := now
                              infoSnapshot := some (buildInfoSnapshot info) }] }

/-- The body of `ExtensionsUpdateStorage.performRemove`: delete the key if
present (the table value is unchanged when the key is absent). -/
def performRemove (tbl : UpdateTable) (extensionId : String) : UpdateTable :=
  match lookupKey tbl extensionId with
  | some _ => eraseKey tbl extensionId
  | none => tbl

/-- The backward scan of `performMarkAsRead` with an explicit `version`:
walk the history from the newest entry to the oldest and flip the first
entry whose version matches and which is not yet read; the `Bool` result is
the `updated` flag. Recursing into the tail first makes later (newer)
entries take precedence, exactly like the `for (i = length - 1; ...)` loop. -/
def markVersionFromEnd (version : String) :
    List ExtensionVersionInfo → List ExtensionVersionInfo × Bool
  | [] => ([], false)
  | e :: rest =>
      let (rest', updated) := markVersionFromEnd version rest
      if updated then (e :: rest', true)
      else if e.version = version ∧ ¬ readFlag e then
        ({ e with isRead := some true } :: rest', true)
      else (e :: rest', false)

/-- The no-version branch of `performMarkAsRead`: mark only the tail entry,
and only when it is unread; the `Bool` result is the `updated` flag. -/
def markLastEntry (h : List ExtensionVersionInfo) : List ExtensionVersionInfo × Bool :=
  match h.getLast? with
  | some lastEntry =>
      if ¬ readFlag lastEntry then
        (h.set (h.length - 1) { lastEntry with isRead := some true }, true)
      else (h, false)
  | none => (h, false)

/-- The body of `ExtensionsUpdateStorage.performMarkAsRead`: no-op when the
extension has no record; otherwise flip the requested entry (specific
version: newest matching unread entry; no version: tail entry). The write
happens only when a flag changed, but either way the resulting table value
is the one returned here. -/
def performMarkAsRead (tbl : UpdateTable) (extensionId : String)
    (version : Option String) : UpdateTable :=
  match lookupKey tbl extensionId with
  | none => tbl
  | some extensionData =>
      let result :=
        match version with
        | some v => markVersionFromEnd v extensionData.updateHistory
        | none => markLastEntry extensionData.updateHistory
      if result.2 then
        setKey tbl extensionId { extensionData with updateHistory := result.1 }
      else tbl

/-- The per-entry update of `performMarkAllAsRead`: an unread entry is
replaced by a copy with `isRead: true`, a read entry is left untouched. -/
def markEntryRead (e : ExtensionVersionInfo) : ExtensionVersionInfo :=
  if ¬ readFlag e then { e with isRead := some true } else e

/-- The body of `ExtensionsUpdateStorage.performMarkAllAsRead`: flip every
unread entry across every extension. -/
def performMarkAllAsRead (tbl : UpdateTable) : UpdateTable :=
  tbl.map (fun kv =>
    (kv.1, { currentVersion := kv.2.currentVersion
             updateHistory := kv.2.updateHistory.map markEntryRead }))

/-- A queued mutation of the update-history store. All four public mutators
funnel through the single-writer queue, so a table evolves by a sequence of
these operations applied to the freshly-read persisted table. -/
inductive UpdateOp where
  | save (info : ExtensionInfo) (now : Int)
  | remove (extensionId : String)
  | markRead (extensionId : String) (version : Option String)
  | markAll
  deriving Repr

/-- Apply one queued operation to the persisted table. -/
def applyUpdateOp (tbl : UpdateTable) : UpdateOp → UpdateTable
  | .save info now => performSave tbl info now
  | .remove extensionId => performRemove tbl extensionId
  | .markRead extensionId version => performMarkAsRead tbl extensionId version
  | .markAll => performMarkAllAsRead tbl

/-- The table obtained from the empty table by a sequence of queued
mutations. -/
def runUpdateOps (ops : List UpdateOp) : UpdateTable :=
  ops.foldl applyUpdateOp []

/-- The record-level invariant of the spec: bounded history, `currentVersion`
tracks the tail entry, and no two consecutive entries share a version. -/
def recordInv (r : ExtensionRecord) : Prop :=
  r.updateHistory.length ≤ MAX_HISTORY_ENTRIES ∧
  (r.updateHistory ≠ [] →
    (r.updateHistory.getLast?).map (fun e => e.version) = some r.currentVersion) ∧
  List.Chain' (fun a b => a.version ≠ b.version) r.updateHistory

/-- The table-level invariant: every stored record satisfies `recordInv`. -/
def tableInv (tbl : UpdateTable) : Prop :=
  ∀ id r, lookupKey tbl id = some r → recordInv r

/-! ## Notification Interaction State Store (`notification-state-storage.ts`) -/

/-- `NotificationCloseReason`. -/
inductive NotificationCloseReason where
  | user
  | timeout
  | programmatic
  deriving Repr, DecidableEq

/-- `NotificationInteractionState`. Timestamps are milliseconds. -/
structure NotificationInteractionState where
  extensionId : String
  version : String
  shownAt : Int
  closedAt : Option Int := none
  closeReason : Option NotificationCloseReason := none
  dismissedByUser : Bool
  deriving Repr, DecidableEq

/-- The persisted `notification_states` table. -/
abbrev NotificationTable := List (String × NotificationInteractionState)

/-- `NotificationStateStorage.STATE_EXPIRY_DAYS`. -/
def STATE_EXPIRY_DAYS : Nat := 30

/-- `NotificationStateStorage.VALID_EXTENSION_ID_LENGTH`. -/
def VALID_EXTENSION_ID_LENGTH : Nat := 32

/-- The `expiryTime` computed in `cleanupExpiredStates`:
`STATE_EXPIRY_DAYS * 24 * 60 * 60 * 1000` milliseconds. -/
def expiryTimeMs : Int := (STATE_EXPIRY_DAYS : Int) * 24 * 60 * 60 * 1000

/-- The per-entry decision of `cleanupExpiredStates`: an entry is dropped
when its key is not exactly 32 characters or its age `now - shownAt`
exceeds the expiry window; it is kept otherwise. -/
def keepState (now : Int) (extensionId : String) (state : NotificationInteractionState) :
    Bool :=
  if extensionId.length ≠ VALID_EXTENSION_ID_LENGTH then false
  else if now - state.shownAt > expiryTimeMs then false
  else true

/-- The body of `NotificationStateStorage.cleanupExpiredStates`: rebuild the
table keeping exactly the entries that pass `keepState`. -/
def cleanupExpiredStates (now : Int) (tbl : NotificationTable) : NotificationTable :=
  tbl.filter (fun e => keepState now e.1 e.2)

/-- The body of `NotificationStateStorage.saveState`: read the current table,
upsert the state under its extension id, run the expired/invalid-key
cleanup, and persist the result. -/
def saveState (now : Int) (tbl : NotificationTable)
    (state : NotificationInteractionState) : NotificationTable :=
  cleanupExpiredStates now (setKey tbl state.extensionId state)

/-- `NotificationStateStorage.getState`: `states[extensionId] || null`. -/
def getState (tbl : NotificationTable) (extensionId : String) :
    Option NotificationInteractionState :=
  lookupKey tbl extensionId

/-- The observable outcome of one `saveState` call: the persisted table and
the listener invocations (listener index paired with the table snapshot it
was handed) performed during the call.  The source body of `saveState`
(notification-state-storage.ts, lines 69–77) contains no call into
`changeListeners`, so the list of listener invocations is empty no matter
which listeners are registered. -/
structure SaveStateOutcome where
  table : NotificationTable
  listenerCalls : List (Nat × NotificationTable)
  deriving Repr, DecidableEq

/-- One `saveState` call observed together with its listener fan-out.
`listeners` is the registry built by `addChangeListener` (listeners are
identified by their registration index). -/
def saveStateRun (now : Int) (tbl : NotificationTable)
    (state : NotificationInteractionState) (listeners : List Nat) : SaveStateOutcome :=
  { table := saveState now tbl state, listenerCalls := [] }

/-- The per-key decision of `cleanupOrphanedStates`: an entry is marked for
deletion when its key is not exactly 32 characters, or the extension is no
longer installed. -/
def orphanKeep (installedExtensionIds : List String) (extensionId : String) : Bool :=
  if extensionId.length ≠ VALID_EXTENSION_ID_LENGTH then false
  else if ¬ installedExtensionIds.contains extensionId then false
  else true

/-- The body of `NotificationStateStorage.cleanupOrphanedStates`: drop every
entry whose key fails the id-length check or whose id is absent from the
installed set; the `Bool` result is the `hasChanges` flag (the storage
write happens only when it is `true`). -/
def cleanupOrphanedStates (installedExtensionIds : List String)
    (tbl : NotificationTable) : NotificationTable × Bool :=
  let entriesToDelete :=
    (tbl.filter (fun e => ! orphanKeep installedExtensionIds e.1)).map (fun e => e.1)
  let states := tbl.filter (fun e => orphanKeep installedExtensionIds e.1)
  (states, ! entriesToDelete.isEmpty)

/-! ## Reconciliation (`extensions-management.ts`, `reconcileVersions`) -/

/-- The state threaded through one reconciliation pass: the update-history
table (backing store of `ExtensionsUpdateStorage`), the notification-states
table, and the update-notification triggers emitted so far (extension id
paired with the `previousVersion` passed to `showUpdateNotification`). -/
structure ReconcileState where
  updates : UpdateTable
  notifStates : NotificationTable
  notifications : List (String × String)
  deriving Repr, DecidableEq

/-- Step 3 of reconciliation for one live extension: `storedSnapshot` is the
`storedData` snapshot captured at the start of the pass, while the saves
apply to the accumulated backing table (each queued `saveInstalledInfo`
re-reads fresh state).  A record absent from the snapshot, or one whose
`currentVersion` differs from the live version, is saved; the
update-notification flow is triggered only when a previous version existed
(and, per JS truthiness of `if (previousVersion)`, was a non-empty
string). -/
def reconcileLiveStep (storedSnapshot : UpdateTable) (now : Int)
    (acc : ReconcileState) (ext : ExtensionInfo) : ReconcileState :=
  match lookupKey storedSnapshot ext.id with
  | none => { acc with updates := performSave acc.updates ext now }
  | some storedEntry =>
      if storedEntry.currentVersion ≠ ext.version then
        { acc with
            updates := performSave acc.updates ext now
            notifications :=
              if storedEntry.currentVersion ≠ "" then
                acc.notifications ++ [(ext.id, storedEntry.currentVersion)]
              else acc.notifications }
      else acc

/-- Step 4 of reconciliation for one stored key: a stored extension that is
no longer installed is removed from the update-history store and its
notification state is cleared (`clearState` deletes the key and persists). -/
def reconcileRemoveStep (installedIds : List String)
    (acc : ReconcileState) (kv : String × ExtensionRecord) : ReconcileState :=
  if installedIds.contains kv.1 then acc
  else
    { acc with
        updates := performRemove acc.updates kv.1
        notifStates := eraseKey acc.notifStates kv.1 }

/-- `ExtensionsManagement.reconcileVersions` as a pure pass over its inputs:
the live installed-extension list, the stored update-history table (the
cache read by `getStorage()`, equal to the persisted table after init), and
the notification-states table.  `now` stands for `Date.now()` within the
pass.  The pass finishes with `cleanupOrphanedStates` on the live id set;
the badge refresh is an external capability call and is not part of the
state. -/
def reconcileVersions (now : Int) (live : List ExtensionInfo)
    (stored : UpdateTable) (nstates : NotificationTable) : ReconcileState :=
  let installedIds := live.map (fun ext => ext.id)
  let afterLive :=
    live.foldl (reconcileLiveStep stored now)
      { updates := stored, notifStates := nstates, notifications := [] }
  let afterRemove := stored.foldl (reconcileRemoveStep installedIds) afterLive
  { afterRemove with
      notifStates := (cleanupOrphanedStates installedIds afterRemove.notifStates).1 }

/-! ## Validated Key-Value Store (`storage-service.ts`) -/

/-- JSON-like values as stored by the `browser.storage.local` backend
(storage values are structured-clone/JSON serializable, so `undefined`
never occurs inside a stored value). -/
inductive JsValue where
  | null
  | bool (b : Bool)
  | num (n : Int)
  | str (s : String)
  | arr (elems : List JsValue)
  | obj (fields : List (String × JsValue))
  deriving Repr

/-- Object-field lookup used for `result[key]` inside `deepMerge`. -/
def lookupField : List (String × JsValue) → String → Option JsValue
  | [], _ => none
  | (k, v) :: rest, key => if k = key then some v else lookupField rest key

/-- Object-field assignment used for `result[key] = ...` inside `deepMerge`. -/
def setField : List (String × JsValue) → String → JsValue → List (String × JsValue)
  | [], key, v => [(key, v)]
  | (k, w) :: rest, key, v =>
      if k = key then (key, v) :: rest else (k, w) :: setField rest key v

mutual

/-- `StorageService.deepMerge`.  A non-object or array target is returned
unchanged; a falsy or non-object source leaves the target unchanged; for an
object target, the fields of the source (for an array source,
`Object.entries` yields its index/element pairs) are folded into a copy of
the target: when both the source field and the existing target field are
plain (non-array, truthy) objects the merge recurses, otherwise the source
value is taken wholesale (a stored field is never `undefined`, so the
`sourceValue !== undefined` guard always passes). -/
def deepMerge (target source : JsValue) : JsValue :=
  match target, source with
  | .obj tfields, .obj sfields => .obj (mergeFields tfields sfields)
  | .obj tfields, .arr elems => .obj (mergeArr tfields 0 elems)
  | _, _ => target
  termination_by (sizeOf source, 0)

/-- Fold the source object's entries into the accumulated result fields. -/
def mergeFields (tfields : List (String × JsValue)) :
    List (String × JsValue) → List (String × JsValue)
  | [] => tfields
  | (k, sv) :: rest => mergeFields (mergeOne tfields k sv) rest
  termination_by l => (sizeOf l, 2)

/-- Fold an array source's index/element entries into the accumulated result
fields (JS `Object.entries` on an array yields string indices). -/
def mergeArr (tfields : List (String × JsValue)) (i : Nat) :
    List JsValue → List (String × JsValue)
  | [] => tfields
  | x :: rest => mergeArr (mergeOne tfields (toString i) x) (i + 1) rest
  termination_by l => (sizeOf l, 2)

/-- Process one source entry: recurse when both sides are plain objects,
otherwise take the source value. -/
def mergeOne (tfields : List (String × JsValue)) (k : String) (sv : JsValue) :
    List (String × JsValue) :=
  match lookupField tfields k, sv with
  | some (.obj tvf), .obj svf => setField tfields k (deepMerge (.obj tvf) (.obj svf))
  | _, _ => setField tfields k sv
  termination_by (sizeOf sv, 1)

end

/-- A registered storage key: the logical key name, the default value and
the optional valibot schema.  The schemas used in this repository are plain
object/record schemas without transformations, so a successful `safeParse`
returns a value equal to its input; validation is therefore embedded as a
Boolean predicate. -/
structure StorageKeySpec where
  key : String
  defaultValue : JsValue
  schema : Option (JsValue → Bool)

/-- The backend outcomes `StorageService.get` can observe: the read throws,
the key is missing (`undefined`), or a raw value is found. -/
inductive BackendRead where
  | readError
  | missing
  | found (raw : JsValue)

/-- The outcome of `StorageService.get`: the returned value and the values
persisted fire-and-forget (un-awaited `set` calls) during the read. -/
structure GetOutcome where
  value : JsValue
  asyncWrites : List JsValue
  deriving Repr

/-- `StorageService.get`.  The whole body is wrapped in try/catch, so a
backend read error degrades to the (cloned) default; a missing key returns
the (cloned) default; without a schema the raw value is returned as-is;
with a schema, a valid raw value is returned, an invalid one is deep-merged
into a fresh clone of the default and the merge is returned and persisted
fire-and-forget when it re-validates, and otherwise the default is returned
and persisted fire-and-forget.  Cloning is identity on pure values. -/
def storageServiceGet (spec : StorageKeySpec) (read : BackendRead) : GetOutcome :=
  match read with
  | .readError => { value := spec.defaultValue, asyncWrites := [] }
  | .missing => { value := spec.defaultValue, asyncWrites := [] }
  | .found raw =>
      match spec.schema with
      | none => { value := raw, asyncWrites := [] }
      | some valid =>
          if valid raw then { value := raw, asyncWrites := [] }
          else
            let mergedValue := deepMerge spec.defaultValue raw
            if valid mergedValue then
              { value := mergedValue, asyncWrites := [mergedValue] }
            else
              { value := spec.defaultValue, asyncWrites := [spec.defaultValue] }

/-! ## Shared concrete inputs used by scenario theorems and witnesses -/

/-- A 32-character extension id (Chrome ids are always 32 characters). -/
def extIdA : String := String.mk (List.replicate 32 'a')

/-- A second 32-character extension id. -/
def extIdB : String := String.mk (List.replicate 32 'b')

/-- A valid, fresh notification state under `extIdA`. -/
def stA : NotificationInteractionState :=
  { extensionId := extIdA, version := "1.0.0", shownAt := 0, dismissedByUser := false }

/-- A valid, fresh notification state under `extIdB`. -/
def stB : NotificationInteractionState :=
  { extensionId := extIdB, version := "3.0.0", shownAt := 0, dismissedByUser := true }

/-- A notification state under an invalid-length (5-character) key. -/
def stBad : NotificationInteractionState :=
  { extensionId := "short", version := "0.1", shownAt := 0, dismissedByUser := false }

/-- A stored record for `extIdA` at version 1.0.0. -/
def recA : ExtensionRecord :=
  { currentVersion := "1.0.0"
    updateHistory := [{ version := "1.0.0", detectedTimestampMs := 10 }] }

/-- A stored record for `extIdB` at version 3.0.0. -/
def recB : ExtensionRecord :=
  { currentVersion := "3.0.0"
    updateHistory := [{ version := "3.0.0", detectedTimestampMs := 11 }] }

/-- The live management snapshot of extension A at version 2.0.0. -/
def liveA : ExtensionInfo := { id := extIdA, name := "A", version := "2.0.0" }

/-- Extension info for the re-detection scenario: fixed id, varying version
and name (the name makes the metadata snapshots of the calls distinct). -/
def extC4 (ver nm : String) : ExtensionInfo := { id := "ext", name := nm, version := ver }

/-! ## Claim theorems -/

/-- **C4**: starting from the empty table, recording versions `1.0.0`,
`1.1.0`, `1.1.0` for the same extension yields `currentVersion = "1.1.0"`
and a two-entry history `["1.0.0", "1.1.0"]`; the third (same-version) call
merges into the tail entry, updating its timestamp to the third call's time
and its metadata snapshot to the third call's snapshot, instead of
appending. -/
theorem redetection_merges_into_tail (t1 t2 t3 : Int) :
    performSave (performSave (performSave [] (extC4 "1.0.0" "n1") t1)
        (extC4 "1.1.0" "n2") t2) (extC4 "1.1.0" "n3") t3
    = [("ext",
        { currentVersion := "1.1.0"
          updateHistory := [
            { version := "1.0.0", detectedTimestampMs := t1, isRead := none,
              previousVersion := none,
              infoSnapshot := some (buildInfoSnapshot (extC4 "1.0.0" "n1")) },
            { version := "1.1.0", detectedTimestampMs := t3, isRead := none,
              previousVersion := some "1.0.0",
              infoSnapshot := some (buildInfoSnapshot (extC4 "1.1.0" "n3")) } ] })] := by
  set_option maxRecDepth 4096 in rfl

/-- **C5**: reconciling live `[A at 2.0.0]` against stored records for A (at
1.0.0) and B appends a `2.0.0` entry with `previousVersion = "1.0.0"` to
A's history, triggers exactly one update notification `(A, "1.0.0")`, and
removes B from both the update-history table and the notification-states
table; reconciling when A has no prior record triggers no notification. -/
theorem reconcile_scenario (now : Int) :
    (lookupKey (reconcileVersions now [liveA] [(extIdA, recA), (extIdB, recB)]
        [(extIdA, stA), (extIdB, stB)]).updates extIdA
      = some { currentVersion := "2.0.0"
               updateHistory := recA.updateHistory ++ [
                 { version := "2.0.0", detectedTimestampMs := now,
                   previousVersion := some "1.0.0",
                   infoSnapshot := some (buildInfoSnapshot liveA) } ] }) ∧
    (reconcileVersions now [liveA] [(extIdA, recA), (extIdB, recB)]
        [(extIdA, stA), (extIdB, stB)]).notifications = [(extIdA, "1.0.0")] ∧
    lookupKey (reconcileVersions now [liveA] [(extIdA, recA), (extIdB, recB)]
        [(extIdA, stA), (extIdB, stB)]).updates extIdB = none ∧
    lookupKey (reconcileVersions now [liveA] [(extIdA, recA), (extIdB, recB)]
        [(extIdA, stA), (extIdB, stB)]).notifStates extIdB = none ∧
    (reconcileVersions now [liveA] [(extIdB, recB)] [(extIdB, stB)]).notifications = [] := by
  set_option maxRecDepth 8192 in
  exact ⟨rfl, rfl, rfl, rfl, rfl⟩

/-- **C8**: every entry present in the table persisted by `saveState` — for
any key, related or not to the saved state — has a key of exactly 32
characters and a `shownAt` at most 30 days before the current time; in
other words the cleanup pass inside every save drops all expired and
invalid-key entries. -/
theorem saveState_prunes_expired (now : Int) (tbl : NotificationTable)
    (state : NotificationInteractionState) (id : String)
    (st : NotificationInteractionState)
    (h : lookupKey (saveState now tbl state) id = some st) :
    id.length = VALID_EXTENSION_ID_LENGTH ∧ now - st.shownAt ≤ expiryTimeMs := by
  have hk := lookupKey_filter (p := fun e => keepState now e.1 e.2) h
  unfold keepState at hk
  by_cases hlen : id.length = VALID_EXTENSION_ID_LENGTH
  · refine ⟨hlen, ?_⟩
    by_cases hage : now - st.shownAt > expiryTimeMs
    · simp [hlen, hage] at hk
    · omega
  · simp [hlen] at hk

/-- Witness for C8: a valid fresh state saved at time 0 is retained, and the
theorem yields its key-validity and freshness. -/
theorem saveState_prunes_expired_witness :
    extIdA.length = VALID_EXTENSION_ID_LENGTH ∧ (0 : Int) - stA.shownAt ≤ expiryTimeMs :=
  saveState_prunes_expired 0 [] stA extIdA stA (by decide)

/-- With distinct keys, a key's binding after `setKey` at that key is the
inserted value. -/
theorem mem_setKey_self_eq {α : Type} {l : List (String × α)} {k : String} {v w : α}
    (hnd : (l.map Prod.fst).Nodup) (h : (k, w) ∈ setKey l k v) : w = v := by
  induction l with
  | nil =>
      simp [setKey] at h
      exact h
  | cons e rest ih =>
      obtain ⟨k1, v1⟩ := e
      simp only [List.map_cons, List.nodup_cons] at hnd
      by_cases he : k1 = k
      · subst he
        simp only [setKey, if_pos rfl] at h
        rcases List.mem_cons.1 h with h1 | h1
        · exact (Prod.ext_iff.1 h1).2
        · exfalso
          exact hnd.1 (List.mem_map.2 ⟨(k1, w), h1, rfl⟩)
      · simp only [setKey, if_neg he] at h
        rcases List.mem_cons.1 h with h1 | h1
        · exfalso
          exact he (Prod.ext_iff.1 h1).1.symm
        · exact ih hnd.2 h1

/-- **C10**: when the state handed to `saveState` itself has an invalid-length
extension id or a `shownAt` more than 30 days in the past, the cleanup pass
inside the save drops that very state, so `getState` on its id returns
`null` right after the save. -/
theorem saveState_drops_saved_state (now : Int) (tbl : NotificationTable)
    (state : NotificationInteractionState)
    (hnd : (tbl.map Prod.fst).Nodup)
    (h : state.extensionId.length ≠ VALID_EXTENSION_ID_LENGTH ∨
      now - state.shownAt > expiryTimeMs) :
    getState (saveState now tbl state) state.extensionId = none := by
  unfold getState saveState cleanupExpiredStates
  apply lookupKey_filter_none
  intro v hv
  have hv' : v = state :=
    mem_setKey_self_eq hnd hv
  subst hv'
  unfold keepState
  rcases h with h1 | h1
  · simp [h1]
  · by_cases hlen : v.extensionId.length = VALID_EXTENSION_ID_LENGTH
    · simp [hlen, h1]
    · simp [hlen]

/-- Witness for C10: saving a state under a 5-character id leaves no entry
under that id. -/
theorem saveState_drops_saved_state_witness :
    getState (saveState 0 [] stBad) stBad.extensionId = none :=
  saveState_drops_saved_state 0 [] stBad (by simp) (Or.inl (by decide))

/-- The Boolean keep-decision of `cleanupOrphanedStates` unfolded to the
spec's two conditions. -/
theorem orphanKeep_eq_true_iff (installedExtensionIds : List String) (id : String) :
    orphanKeep installedExtensionIds id = true ↔
      (id.length = VALID_EXTENSION_ID_LENGTH ∧ id ∈ installedExtensionIds) := by
  unfold orphanKeep
  by_cases hlen : id.length = VALID_EXTENSION_ID_LENGTH
  · by_cases hmem : installedExtensionIds.contains id = true
    · simp [hlen, hmem, List.elem_iff.1 hmem]
    · simp only [List.elem_iff] at hmem
      simp [hlen, hmem]
  · simp [hlen]

/-- **C9**: `cleanupOrphaned({A})` on a table with entries for A, B and an
invalid-length key retains exactly A's entry; in general the cleanup
retains exactly the entries with a 32-character key belonging to an
installed extension, and reports a change (triggering the storage write)
exactly when some entry was removed. -/
theorem cleanupOrphanedStates_spec :
    (cleanupOrphanedStates [extIdA] [(extIdA, stA), (extIdB, stB), ("short", stBad)]).1
      = [(extIdA, stA)] ∧
    (∀ (installedExtensionIds : List String) (tbl : NotificationTable) (id : String),
      lookupKey (cleanupOrphanedStates installedExtensionIds tbl).1 id =
        if id.length = VALID_EXTENSION_ID_LENGTH ∧ id ∈ installedExtensionIds
        then lookupKey tbl id else none) ∧
    (∀ (installedExtensionIds : List String) (tbl : NotificationTable),
      (cleanupOrphanedStates installedExtensionIds tbl).2 = true ↔
        ∃ e ∈ tbl,
          ¬ (e.1.length = VALID_EXTENSION_ID_LENGTH ∧ e.1 ∈ installedExtensionIds)) := by
  refine ⟨by set_option maxRecDepth 8192 in decide, ?_, ?_⟩
  · intro installedExtensionIds tbl id
    have := lookupKey_filter_keyPred (fun k => orphanKeep installedExtensionIds k) tbl id
    rw [show (cleanupOrphanedStates installedExtensionIds tbl).1
        = tbl.filter (fun e => orphanKeep installedExtensionIds e.1) from rfl, this]
    by_cases hk : orphanKeep installedExtensionIds id = true
    · rw [if_pos hk, if_pos ((orphanKeep_eq_true_iff _ _).1 hk)]
    · rw [if_neg hk, if_neg (fun hc => hk ((orphanKeep_eq_true_iff _ _).2 hc))]
  · intro installedExtensionIds tbl
    rw [show (cleanupOrphanedStates installedExtensionIds tbl).2
        = ! ((tbl.filter (fun e => ! orphanKeep installedExtensionIds e.1)).map
            (fun e => e.1)).isEmpty from rfl]
    cases hfe : tbl.filter (fun e => ! orphanKeep installedExtensionIds e.1) with
    | nil =>
        simp only [hfe, List.map_nil, List.isEmpty_nil, Bool.not_true]
        constructor
        · intro hc
          simp at hc
        · rintro ⟨e, he, hbad⟩
          exfalso
          have hkeep := List.filter_eq_nil_iff.1 hfe e he
          apply hbad
          apply (orphanKeep_eq_true_iff _ _).1
          simpa using hkeep
    | cons e0 rest =>
        simp only [hfe, List.map_cons, List.isEmpty_cons, Bool.not_false]
        constructor
        · intro _
          have he0 : e0 ∈ tbl.filter (fun e => ! orphanKeep installedExtensionIds e.1) := by
            rw [hfe]
            exact List.mem_cons_self _ _
          refine ⟨e0, List.mem_of_mem_filter he0, fun hc => ?_⟩
          have hkeep := List.of_mem_filter he0
          rw [(orphanKeep_eq_true_iff _ _).2 hc] at hkeep
          simp at hkeep
        · intro _
          trivial

/-- Witness for C9 (the theorem's only hypotheses live inside its universally
quantified conjuncts): instantiating the write-decision conjunct at a
table whose sole entry is orphaned. -/
theorem cleanupOrphanedStates_spec_witness :
    (cleanupOrphanedStates [] [(extIdB, stB)]).2 = true :=
  (cleanupOrphanedStates_spec.2.2 [] [(extIdB, stB)]).2
    ⟨(extIdB, stB), by simp, by simp⟩

/-- A concrete registered storage key used to witness the get-contract: the
`notification_states` key with empty-object default and a schema. -/
def specNotifStates : StorageKeySpec :=
  { key := "notification_states"
    defaultValue := .obj []
    schema := some (fun raw => match raw with | .obj _ => true | _ => false) }

/-- **C6**: the get-contract of the Validated Key-Value Store. `get` is a
total function (it never throws): a backend read error or a missing key
returns the registered default with no side writes; a stored value passing
schema validation is returned as-is; a failing value is deep-merged into a
fresh default and, when the merge re-validates, the merged value is both
returned and persisted fire-and-forget; otherwise the default is returned
(and persisted fire-and-forget as a last resort). -/
theorem storageServiceGet_contract (spec : StorageKeySpec)
    (valid : JsValue → Bool) (hschema : spec.schema = some valid) :
    storageServiceGet spec .readError
        = { value := spec.defaultValue, asyncWrites := [] } ∧
    storageServiceGet spec .missing
        = { value := spec.defaultValue, asyncWrites := [] } ∧
    ∀ raw : JsValue,
      (valid raw = true →
        storageServiceGet spec (.found raw) = { value := raw, asyncWrites := [] }) ∧
      (valid raw = false → valid (deepMerge spec.defaultValue raw) = true →
        storageServiceGet spec (.found raw)
          = { value := deepMerge spec.defaultValue raw
              asyncWrites := [deepMerge spec.defaultValue raw] }) ∧
      (valid raw = false → valid (deepMerge spec.defaultValue raw) = false →
        storageServiceGet spec (.found raw)
          = { value := spec.defaultValue, asyncWrites := [spec.defaultValue] }) := by
  refine ⟨rfl, rfl, fun raw => ⟨?_, ?_, ?_⟩⟩
  · intro hv
    simp [storageServiceGet, hschema, hv]
  · intro hv hm
    simp [storageServiceGet, hschema, hv, hm]
  · intro hv hm
    simp [storageServiceGet, hschema, hv, hm]

/-- Witness for C6: the contract applied to the concrete
`notification_states` key, first conjunct (read error returns the cloned
default with no writes). -/
theorem storageServiceGet_contract_witness :
    storageServiceGet specNotifStates .readError
      = { value := specNotifStates.defaultValue, asyncWrites := [] } :=
  (storageServiceGet_contract specNotifStates
    (fun raw => match raw with | .obj _ => true | _ => false) rfl).1

/-- **C1, counterexample**: with one registered change listener, a
`saveState` call performs no listener invocation at all — in particular the
claimed full-table fan-out to every registered listener does not happen
(the source body of `saveState` never calls into `changeListeners`). -/
theorem saveState_fanout_counterexample :
    ¬ (∀ l ∈ ([0] : List Nat),
        ∃ c ∈ (saveStateRun 0 [] stA [0]).listenerCalls,
          c.1 = l ∧ c.2 = (saveStateRun 0 [] stA [0]).table) := by
  intro h
  rcases h 0 (List.mem_singleton.2 rfl) with ⟨c, hc, _⟩
  simp [saveStateRun] at hc

/-- **C1, amended**: `saveState` upserts the state, runs the expired/
invalid-key cleanup and persists the result, but it does not invoke any
registered change listener: the registry exists (`addChangeListener`) yet
no code in the store fires it on save. -/
theorem saveState_no_fanout (now : Int) (tbl : NotificationTable)
    (state : NotificationInteractionState) (listeners : List Nat) :
    (saveStateRun now tbl state listeners).listenerCalls = [] ∧
    (saveStateRun now tbl state listeners).table
      = cleanupExpiredStates now (setKey tbl state.extensionId state) :=
  ⟨rfl, rfl⟩

/-! ## Support lemmas for the update-store invariant and monotonicity -/

theorem getLast?_drop {α : Type} (l : List α) (k : Nat) (hk : k < l.length) :
    (l.drop k).getLast? = l.getLast? := by
  rw [List.getLast?_eq_getElem?, List.getLast?_eq_getElem?, List.getElem?_drop,
    List.length_drop]
  congr 1
  omega

theorem set_last_eq_dropLast_append {α : Type} (l : List α) (hl : l ≠ []) (a : α) :
    l.set (l.length - 1) a = l.dropLast ++ [a] := by
  induction l with
  | nil => simp at hl
  | cons x rest ih =>
      cases rest with
      | nil => simp [List.set]
      | cons y t =>
          have h1 : (x :: y :: t).length - 1 = ((y :: t).length - 1) + 1 := by
            simp
          rw [h1]
          have h2 : (x :: y :: t).set (((y :: t).length - 1) + 1) a
              = x :: (y :: t).set ((y :: t).length - 1) a := by
            simp [List.set]
          rw [h2, ih (by simp)]
          simp

theorem set_of_getElem?_eq {α : Type} {l : List α} {n : Nat} {a : α}
    (h : l[n]? = some a) : l.set n a = l := by
  induction l generalizing n with
  | nil => simp at h
  | cons x rest ih =>
      cases n with
      | zero =>
          simp only [List.getElem?_cons_zero, Option.some_inj] at h
          rw [← h]
          rfl
      | succ m =>
          simp only [List.getElem?_cons_succ] at h
          simp [List.set, ih h]

theorem chain'_set_last {α : Type} {R : α → α → Prop} {l : List α}
    (hc : List.Chain' R l) {last a : α} (hl : l.getLast? = some last)
    (hR : ∀ x, R x last → R x a) :
    List.Chain' R (l.set (l.length - 1) a) := by
  have hne : l ≠ [] := by
    intro hnil
    rw [hnil] at hl
    simp at hl
  rw [set_last_eq_dropLast_append l hne a]
  have hdecomp : l.dropLast ++ [l.getLast hne] = l := List.dropLast_concat_getLast hne
  have hlast_eq : l.getLast hne = last := by
    have := List.getLast?_eq_getLast l hne
    rw [this] at hl
    exact (Option.some_inj.1 hl)
  rw [← hdecomp] at hc
  rcases List.chain'_append.1 hc with ⟨hc1, _, hlink⟩
  refine List.chain'_append.2 ⟨hc1, List.chain'_singleton a, ?_⟩
  intro x hx y hy
  simp only [List.head?_cons, Option.mem_def, Option.some.injEq] at hy
  subst hy
  exact hR x (hlink x hx last (by simp [hlast_eq]))

theorem trimHistory_length_le (h : List ExtensionVersionInfo) :
    (trimHistory h).length ≤ MAX_HISTORY_ENTRIES := by
  unfold trimHistory
  rw [List.length_drop]
  unfold MAX_HISTORY_ENTRIES
  omega

theorem trimHistory_getLast? (h : List ExtensionVersionInfo) (hne : h ≠ []) :
    (trimHistory h).getLast? = h.getLast? := by
  apply getLast?_drop
  have : 0 < h.length := List.length_pos.2 hne
  unfold MAX_HISTORY_ENTRIES
  omega

theorem trimHistory_ne_nil (h : List ExtensionVersionInfo) (hne : h ≠ []) :
    trimHistory h ≠ [] := by
  unfold trimHistory
  rw [Ne, List.drop_eq_nil_iff]
  have : 0 < h.length := List.length_pos.2 hne
  unfold MAX_HISTORY_ENTRIES
  omega

theorem trimHistory_chain' {R : ExtensionVersionInfo → ExtensionVersionInfo → Prop}
    {h : List ExtensionVersionInfo} (hc : List.Chain' R h) :
    List.Chain' R (trimHistory h) :=
  hc.drop _

theorem updatedHistory_ne_nil (h : List ExtensionVersionInfo) (info : ExtensionInfo)
    (now : Int) : updatedHistory h info now ≠ [] := by
  unfold updatedHistory
  cases hl : h.getLast? with
  | none => simp
  | some last =>
      have hne : h ≠ [] := by
        intro h0
        rw [h0] at hl
        simp at hl
      by_cases hv : last.version = info.version
      · dsimp only
        rw [if_pos hv, set_last_eq_dropLast_append h hne]
        simp
      · dsimp only
        rw [if_neg hv]
        simp

theorem updatedHistory_getLast?_version (h : List ExtensionVersionInfo)
    (info : ExtensionInfo) (now : Int) :
    ((updatedHistory h info now).getLast?).map (fun e => e.version)
      = some info.version := by
  unfold updatedHistory
  cases hl : h.getLast? with
  | none => simp
  | some last =>
      have hne : h ≠ [] := by
        intro h0
        rw [h0] at hl
        simp at hl
      by_cases hv : last.version = info.version
      · dsimp only
        rw [if_pos hv, set_last_eq_dropLast_append h hne, List.getLast?_concat]
        simp [hv]
      · dsimp only
        rw [if_neg hv, List.getLast?_concat]
        rfl

theorem updatedHistory_chain' {h : List ExtensionVersionInfo}
    (hc : List.Chain' (fun a b => a.version ≠ b.version) h)
    (info : ExtensionInfo) (now : Int) :
    List.Chain' (fun a b => a.version ≠ b.version) (updatedHistory h info now) := by
  unfold updatedHistory
  cases hl : h.getLast? with
  | none =>
      have hnil : h = [] := by
        cases h with
        | nil => rfl
        | cons x t => simp [List.getLast?_eq_getElem?] at hl
      subst hnil
      simp
  | some last =>
      by_cases hv : last.version = info.version
      · dsimp only
        rw [if_pos hv]
        apply chain'_set_last hc hl
        intro x hx
        simpa [hv] using hx
      · dsimp only
        rw [if_neg hv]
        refine List.chain'_append.2 ⟨hc, List.chain'_singleton _, ?_⟩
        intro x hx y hy
        simp only [Option.mem_def] at hx
        rw [hl] at hx
        have hx2 : last = x := Option.some_inj.1 hx
        simp only [List.head?_cons, Option.mem_def, Option.some.injEq] at hy
        subst hy
        rw [← hx2]
        simpa using hv

theorem lookupKey_mapValues {α β : Type} (f : α → β) (l : List (String × α)) (k : String) :
    lookupKey (l.map (fun kv => (kv.1, f kv.2))) k = (lookupKey l k).map f := by
  induction l with
  | nil => rfl
  | cons e rest ih =>
      obtain ⟨k1, v1⟩ := e
      by_cases he : k1 = k
      · simp [lookupKey, he]
      · simp [lookupKey, he, ih]

theorem markVersionFromEnd_map_version (v : String) (l : List ExtensionVersionInfo) :
    (markVersionFromEnd v l).1.map (fun e => e.version)
      = l.map (fun e => e.version) := by
  induction l with
  | nil => rfl
  | cons e rest ih =>
      cases hm : markVersionFromEnd v rest with
      | mk rest' updated =>
          rw [hm] at ih
          simp only [markVersionFromEnd, hm]
          cases updated with
          | true => simpa using ih
          | false =>
              by_cases hcond : e.version = v ∧ ¬ readFlag e
              · rw [if_neg (by simp), if_pos hcond]
                simpa using ih
              · rw [if_neg (by simp), if_neg hcond]
                simpa using ih

theorem markLastEntry_map_version (l : List ExtensionVersionInfo) :
    (markLastEntry l).1.map (fun e => e.version) = l.map (fun e => e.version) := by
  unfold markLastEntry
  cases hl : l.getLast? with
  | none => rfl
  | some lastEntry =>
      by_cases hr : readFlag lastEntry = true
      · dsimp only
        rw [if_neg (by simpa using hr)]
      · dsimp only
        rw [if_pos (by simpa using hr), List.map_set]
        apply set_of_getElem?_eq
        rw [List.getLast?_eq_getElem?] at hl
        rw [List.getElem?_map, hl]
        rfl

theorem markEntryRead_version (e : ExtensionVersionInfo) :
    (markEntryRead e).version = e.version := by
  unfold markEntryRead
  split <;> rfl

theorem recordInv_of_map_version_eq {r r' : ExtensionRecord}
    (hc : r'.currentVersion = r.currentVersion)
    (hm : r'.updateHistory.map (fun e => e.version)
      = r.updateHistory.map (fun e => e.version))
    (hinv : recordInv r) : recordInv r' := by
  obtain ⟨h1, h2, h3⟩ := hinv
  have hlen : r'.updateHistory.length = r.updateHistory.length := by
    have := congrArg List.length hm
    simpa using this
  refine ⟨by omega, ?_, ?_⟩
  · intro hne
    have hne2 : r.updateHistory ≠ [] := by
      intro h0
      rw [h0] at hlen
      exact hne (List.length_eq_zero.1 (by simpa using hlen))
    have hg := congrArg List.getLast? hm
    rw [List.getLast?_map, List.getLast?_map] at hg
    rw [hc, ← h2 hne2]
    exact hg
  · have hrc : List.Chain' Ne (r.updateHistory.map (fun e => e.version)) :=
      (List.chain'_map _).2 h3
    rw [← hm] at hrc
    exact (List.chain'_map _).1 hrc

theorem recordInv_fresh (info : ExtensionInfo) (now : Int) :
    recordInv
      { currentVersion := info.version
        updateHistory := [{ version := info.version, detectedTimestampMs := now,
                            infoSnapshot := some (buildInfoSnapshot info) }] } := by
  refine ⟨?_, fun _ => by simp, by simp⟩
  simp [MAX_HISTORY_ENTRIES]

theorem recordInv_saved (existing : ExtensionRecord) (hinv : recordInv existing)
    (info : ExtensionInfo) (now : Int) :
    recordInv
      { currentVersion := info.version
        updateHistory := trimHistory (updatedHistory existing.updateHistory info now) } := by
  obtain ⟨_, _, hchain⟩ := hinv
  refine ⟨trimHistory_length_le _, ?_, trimHistory_chain' (updatedHistory_chain' hchain info now)⟩
  intro _
  rw [trimHistory_getLast? _ (updatedHistory_ne_nil _ info now)]
  exact updatedHistory_getLast?_version _ info now

theorem tableInv_performSave {tbl : UpdateTable} (hinv : tableInv tbl)
    (info : ExtensionInfo) (now : Int) : tableInv (performSave tbl info now) := by
  intro id r hr
  unfold performSave at hr
  split at hr
  case h_1 existing heq =>
      by_cases hid : id = info.id
      · subst hid
        rw [lookupKey_setKey_self] at hr
        obtain rfl := (Option.some_inj.1 hr).symm
        exact recordInv_saved existing (hinv _ _ heq) info now
      · rw [lookupKey_setKey_ne _ _ _ _ hid] at hr
        exact hinv _ _ hr
  case h_2 heq =>
      by_cases hid : id = info.id
      · subst hid
        rw [lookupKey_setKey_self] at hr
        obtain rfl := (Option.some_inj.1 hr).symm
        exact recordInv_fresh info now
      · rw [lookupKey_setKey_ne _ _ _ _ hid] at hr
        exact hinv _ _ hr

theorem tableInv_performRemove {tbl : UpdateTable} (hinv : tableInv tbl)
    (eid : String) : tableInv (performRemove tbl eid) := by
  intro id r hr
  unfold performRemove at hr
  split at hr
  · by_cases hid : id = eid
    · subst hid
      rw [lookupKey_eraseKey_self] at hr
      simp at hr
    · rw [lookupKey_eraseKey_ne _ _ _ hid] at hr
      exact hinv _ _ hr
  · exact hinv _ _ hr

theorem tableInv_performMarkAsRead {tbl : UpdateTable} (hinv : tableInv tbl)
    (eid : String) (version : Option String) :
    tableInv (performMarkAsRead tbl eid version) := by
  intro id r hr
  have hgen : ∀ (result : List ExtensionVersionInfo × Bool)
      (extensionData : ExtensionRecord),
      lookupKey tbl eid = some extensionData →
      result.1.map (fun e => e.version)
        = extensionData.updateHistory.map (fun e => e.version) →
      lookupKey (if result.2 = true then
          setKey tbl eid { extensionData with updateHistory := result.1 }
        else tbl) id = some r →
      recordInv r := by
    intro result extensionData heq hm hr2
    split at hr2
    · by_cases hid : id = eid
      · subst hid
        rw [lookupKey_setKey_self] at hr2
        obtain rfl := (Option.some_inj.1 hr2).symm
        exact recordInv_of_map_version_eq (r := extensionData) rfl hm (hinv _ _ heq)
      · rw [lookupKey_setKey_ne _ _ _ _ hid] at hr2
        exact hinv _ _ hr2
    · exact hinv _ _ hr2
  cases hlk : lookupKey tbl eid with
  | none =>
      unfold performMarkAsRead at hr
      rw [hlk] at hr
      exact hinv _ _ hr
  | some extensionData =>
      unfold performMarkAsRead at hr
      rw [hlk] at hr
      dsimp only at hr
      cases version with
      | some v =>
          exact hgen (markVersionFromEnd v extensionData.updateHistory) extensionData hlk
            (markVersionFromEnd_map_version v _) hr
      | none =>
          exact hgen (markLastEntry extensionData.updateHistory) extensionData hlk
            (markLastEntry_map_version _) hr

theorem lookupKey_markAllValues (l : UpdateTable) (k : String) :
    lookupKey (l.map (fun kv =>
        (kv.1, ({ currentVersion := kv.2.currentVersion
                  updateHistory := kv.2.updateHistory.map markEntryRead } :
                  ExtensionRecord)))) k
      = (lookupKey l k).map (fun rec =>
          ({ currentVersion := rec.currentVersion
             updateHistory := rec.updateHistory.map markEntryRead } : ExtensionRecord)) :=
  lookupKey_mapValues
    (fun rec : ExtensionRecord =>
      ({ currentVersion := rec.currentVersion
         updateHistory := rec.updateHistory.map markEntryRead } : ExtensionRecord)) l k

theorem tableInv_performMarkAllAsRead {tbl : UpdateTable} (hinv : tableInv tbl) :
    tableInv (performMarkAllAsRead tbl) := by
  intro id r hr
  unfold performMarkAllAsRead at hr
  rw [lookupKey_markAllValues] at hr
  cases hlk : lookupKey tbl id with
  | none => rw [hlk] at hr; simp at hr
  | some r0 =>
      rw [hlk] at hr
      simp only [Option.map_some'] at hr
      obtain rfl := (Option.some_inj.1 hr).symm
      refine recordInv_of_map_version_eq (r := r0) rfl ?_ (hinv _ _ hlk)
      show (r0.updateHistory.map markEntryRead).map (fun e => e.version)
        = r0.updateHistory.map (fun e => e.version)
      rw [List.map_map]
      apply List.map_congr_left
      intro e _
      exact markEntryRead_version e

theorem tableInv_applyUpdateOp {tbl : UpdateTable} (hinv : tableInv tbl)
    (op : UpdateOp) : tableInv (applyUpdateOp tbl op) := by
  cases op with
  | save info now => exact tableInv_performSave hinv info now
  | remove eid => exact tableInv_performRemove hinv eid
  | markRead eid version => exact tableInv_performMarkAsRead hinv eid version
  | markAll => exact tableInv_performMarkAllAsRead hinv

/-- **C2**: every table reachable from the empty table by any sequence of the
queued mutations (`saveInstalledInfo`, `removeExtension`, `markUpdateAsRead`,
`markAllAsRead`) satisfies, for every stored record: the history has at most
`MAX_HISTORY_ENTRIES` (100) entries, `currentVersion` equals the version of
the tail history entry whenever the history is non-empty, and no two
consecutive history entries share a version. -/
theorem updateStore_invariant (ops : List UpdateOp) : tableInv (runUpdateOps ops) := by
  suffices h : ∀ tbl : UpdateTable, tableInv tbl → tableInv (ops.foldl applyUpdateOp tbl) by
    refine h [] ?_
    intro id r hr
    simp [lookupKey] at hr
  induction ops with
  | nil => exact fun tbl h => h
  | cons op rest ih =>
      intro tbl h
      exact ih _ (tableInv_applyUpdateOp h op)

/-- Witness for C2 (the invariant's content is an implication over stored
records): the record produced by one save from the empty table satisfies
the invariant. -/
theorem updateStore_invariant_witness :
    recordInv
      { currentVersion := "2.0.0"
        updateHistory := [{ version := "2.0.0", detectedTimestampMs := 7,
                            infoSnapshot := some (buildInfoSnapshot liveA) }] } :=
  updateStore_invariant [UpdateOp.save liveA 7] extIdA _ (by rfl)

/-! ## Mark-read monotonicity (C7) -/

/-- Entry-level correspondence between a record's history before and after
one queued operation: the new history aligns with the old one shifted by a
drop amount `d` (the drop-oldest trimming); every new entry either carries
an old entry's `isRead` flag unchanged or upgrades it to `true` (with the
version untouched), or is the freshly appended entry (unset `isRead`,
sitting at the position just past the old history).  In particular an
entry whose `isRead` was `true` before the operation and which survives it
is still `true` afterwards — no operation downgrades a read flag. -/
def isReadMonoStep (old new : List ExtensionVersionInfo) : Prop :=
  ∃ d : Nat, ∀ j e', new[j]? = some e' →
    (∃ e, old[j + d]? = some e ∧ e'.version = e.version ∧
      (e'.isRead = e.isRead ∨ e'.isRead = some true)) ∨
    (e'.isRead = none ∧ j + d = old.length)

theorem isReadMonoStep_refl (h : List ExtensionVersionInfo) : isReadMonoStep h h :=
  ⟨0, fun j e' hj => Or.inl ⟨e', by simpa using hj, rfl, Or.inl rfl⟩⟩

theorem isReadMonoStep_append_fresh (h : List ExtensionVersionInfo)
    (x : ExtensionVersionInfo) (hx : x.isRead = none) :
    isReadMonoStep h (trimHistory (h ++ [x])) := by
  refine ⟨(h.length + 1) - MAX_HISTORY_ENTRIES, fun j e' hj => ?_⟩
  unfold trimHistory at hj
  rw [List.getElem?_drop, List.length_append] at hj
  simp only [List.length_singleton] at hj
  rcases Nat.lt_or_ge (((h.length + 1) - MAX_HISTORY_ENTRIES) + j) h.length
    with hlt | hge
  · rw [List.getElem?_append_left hlt] at hj
    rw [Nat.add_comm] at hj
    exact Or.inl ⟨e', hj, rfl, Or.inl rfl⟩
  · rw [List.getElem?_append_right hge] at hj
    have hidx : ((h.length + 1) - MAX_HISTORY_ENTRIES) + j - h.length = 0 := by
      by_contra hno
      rw [List.getElem?_eq_none (by simp; omega)] at hj
      exact Option.noConfusion hj
    rw [hidx] at hj
    simp only [List.getElem?_cons_zero, Option.some_inj] at hj
    refine Or.inr ⟨?_, by omega⟩
    rw [← hj]
    exact hx

theorem isReadMonoStep_set_tail (h : List ExtensionVersionInfo)
    (last u : ExtensionVersionInfo) (hl : h.getLast? = some last)
    (hv : u.version = last.version) (hr : u.isRead = last.isRead) :
    isReadMonoStep h (trimHistory (h.set (h.length - 1) u)) := by
  have hne : h ≠ [] := by
    intro h0
    rw [h0] at hl
    simp at hl
  have hpos : 0 < h.length := List.length_pos.2 hne
  refine ⟨h.length - MAX_HISTORY_ENTRIES, fun j e' hj => Or.inl ?_⟩
  unfold trimHistory at hj
  rw [List.getElem?_drop, List.length_set, List.getElem?_set] at hj
  by_cases hidx : h.length - 1 = (h.length - MAX_HISTORY_ENTRIES) + j
  · rw [if_pos hidx, if_pos (by omega)] at hj
    refine ⟨last, ?_, ?_, Or.inl ?_⟩
    · rw [List.getLast?_eq_getElem?] at hl
      rw [Nat.add_comm, ← hidx]
      exact hl
    · rw [← Option.some_inj.1 hj]
      exact hv
    · rw [← Option.some_inj.1 hj]
      exact hr
  · rw [if_neg hidx] at hj
    rw [Nat.add_comm] at hj
    exact ⟨e', hj, rfl, Or.inl rfl⟩

theorem isReadMonoStep_save (h : List ExtensionVersionInfo) (info : ExtensionInfo)
    (now : Int) : isReadMonoStep h (trimHistory (updatedHistory h info now)) := by
  unfold updatedHistory
  cases hl : h.getLast? with
  | none =>
      dsimp only
      exact isReadMonoStep_append_fresh h _ rfl
  | some last =>
      by_cases hv : last.version = info.version
      · dsimp only
        rw [if_pos hv]
        exact isReadMonoStep_set_tail h last _ hl rfl rfl
      · dsimp only
        rw [if_neg hv]
        exact isReadMonoStep_append_fresh h _ rfl

theorem markVersionFromEnd_snd_false (v : String) (l : List ExtensionVersionInfo)
    (h : (markVersionFromEnd v l).2 = false) : (markVersionFromEnd v l).1 = l := by
  induction l with
  | nil => rfl
  | cons e rest ih =>
      cases hm : markVersionFromEnd v rest with
      | mk rest' updated =>
          rw [hm] at ih
          simp only [markVersionFromEnd, hm] at h ⊢
          cases updated with
          | true => simp at h
          | false =>
              by_cases hcond : e.version = v ∧ ¬ readFlag e
              · rw [if_neg (by simp), if_pos hcond] at h
                simp at h
              · rw [if_neg (by simp), if_neg hcond] at h ⊢
                have hrr : rest' = rest := ih rfl
                rw [hrr]

theorem markVersionFromEnd_pointwise (v : String) (l : List ExtensionVersionInfo)
    (j : Nat) :
    (markVersionFromEnd v l).1[j]? = l[j]? ∨
    ∃ e, l[j]? = some e ∧
      (markVersionFromEnd v l).1[j]? = some { e with isRead := some true } := by
  induction l generalizing j with
  | nil => left; rfl
  | cons e rest ih =>
      cases hm : markVersionFromEnd v rest with
      | mk rest' updated =>
          have ih' : ∀ m : Nat, rest'[m]? = rest[m]? ∨
              ∃ x, rest[m]? = some x ∧
                rest'[m]? = some { x with isRead := some true } := by
            intro m
            have hh := ih m
            rw [hm] at hh
            exact hh
          simp only [markVersionFromEnd, hm]
          cases updated with
          | true =>
              rw [if_pos rfl]
              cases j with
              | zero => left; simp
              | succ m =>
                  simp only [List.getElem?_cons_succ]
                  exact ih' m
          | false =>
              rw [if_neg (by simp)]
              by_cases hcond : e.version = v ∧ ¬ readFlag e
              · rw [if_pos hcond]
                cases j with
                | zero =>
                    right
                    exact ⟨e, by simp, by simp⟩
                | succ m =>
                    have hsnd : (markVersionFromEnd v rest).1 = rest :=
                      markVersionFromEnd_snd_false v rest (by rw [hm])
                    rw [hm] at hsnd
                    have hrr : rest' = rest := hsnd
                    left
                    simp only [List.getElem?_cons_succ]
                    rw [hrr]
              · rw [if_neg hcond]
                cases j with
                | zero => left; simp
                | succ m =>
                    simp only [List.getElem?_cons_succ]
                    exact ih' m

theorem isReadMonoStep_markVersion (v : String) (h : List ExtensionVersionInfo) :
    isReadMonoStep h (markVersionFromEnd v h).1 := by
  refine ⟨0, fun j e' hj => Or.inl ?_⟩
  rcases markVersionFromEnd_pointwise v h j with hsame | ⟨e, he, hflip⟩
  · rw [hsame] at hj
    exact ⟨e', by simpa using hj, rfl, Or.inl rfl⟩
  · rw [hflip] at hj
    obtain rfl := (Option.some_inj.1 hj).symm
    exact ⟨e, by simpa using he, rfl, Or.inr rfl⟩

theorem isReadMonoStep_markLast (h : List ExtensionVersionInfo) :
    isReadMonoStep h (markLastEntry h).1 := by
  unfold markLastEntry
  cases hl : h.getLast? with
  | none => exact isReadMonoStep_refl h
  | some lastEntry =>
      by_cases hr : readFlag lastEntry = true
      · dsimp only
        rw [if_neg (by simpa using hr)]
        exact isReadMonoStep_refl h
      · dsimp only
        rw [if_pos (by simpa using hr)]
        refine ⟨0, fun j e' hj => Or.inl ?_⟩
        rw [List.getElem?_set] at hj
        by_cases hidx : h.length - 1 = j
        · have hne : h ≠ [] := by
            intro h0
            rw [h0] at hl
            simp at hl
          have hpos : 0 < h.length := List.length_pos.2 hne
          rw [if_pos hidx, if_pos (by omega)] at hj
          refine ⟨lastEntry, ?_, ?_, Or.inr ?_⟩
          · rw [List.getLast?_eq_getElem?] at hl
            rw [Nat.add_zero, ← hidx]
            exact hl
          · rw [← Option.some_inj.1 hj]
          · rw [← Option.some_inj.1 hj]
        · rw [if_neg hidx] at hj
          exact ⟨e', by simpa using hj, rfl, Or.inl rfl⟩

theorem isReadMonoStep_markAll (h : List ExtensionVersionInfo) :
    isReadMonoStep h (h.map markEntryRead) := by
  refine ⟨0, fun j e' hj => Or.inl ?_⟩
  rw [List.getElem?_map] at hj
  cases he : h[j]? with
  | none => rw [he] at hj; simp at hj
  | some e =>
      rw [he] at hj
      simp only [Option.map_some'] at hj
      obtain rfl := (Option.some_inj.1 hj).symm
      refine ⟨e, by simpa using he, markEntryRead_version e, ?_⟩
      unfold markEntryRead
      split
      · exact Or.inr rfl
      · exact Or.inl rfl

/-- **C7**: mark-read monotonicity. For every queued operation and every
extension id carrying a record both before and after the operation, the new
history corresponds to the old one (`isReadMonoStep`): every surviving
entry keeps its version and either keeps its `isRead` flag or upgrades it
to `true`, and the only genuinely new entry is an appended one with unset
`isRead` — so no operation ever resets a `true` flag back to `false`, and
same-version re-detection preserves the tail entry's `isRead`. -/
theorem markRead_monotonicity (tbl : UpdateTable) (op : UpdateOp) (id : String)
    (rec rec' : ExtensionRecord)
    (hb : lookupKey tbl id = some rec)
    (ha : lookupKey (applyUpdateOp tbl op) id = some rec') :
    isReadMonoStep rec.updateHistory rec'.updateHistory := by
  cases op with
  | save info now =>
      unfold applyUpdateOp performSave at ha
      dsimp only at ha
      cases hlk : lookupKey tbl info.id with
      | some existing =>
          rw [hlk] at ha
          dsimp only at ha
          by_cases hid : id = info.id
          · subst hid
            have hre : existing = rec := Option.some_inj.1 (hlk.symm.trans hb)
            subst hre
            rw [lookupKey_setKey_self] at ha
            obtain rfl := (Option.some_inj.1 ha).symm
            exact isReadMonoStep_save existing.updateHistory info now
          · rw [lookupKey_setKey_ne _ _ _ _ hid] at ha
            obtain rfl := Option.some_inj.1 (hb.symm.trans ha)
            exact isReadMonoStep_refl _
      | none =>
          rw [hlk] at ha
          dsimp only at ha
          by_cases hid : id = info.id
          · subst hid
            rw [hlk] at hb
            exact Option.noConfusion hb
          · rw [lookupKey_setKey_ne _ _ _ _ hid] at ha
            obtain rfl := Option.some_inj.1 (hb.symm.trans ha)
            exact isReadMonoStep_refl _
  | remove eid =>
      unfold applyUpdateOp performRemove at ha
      dsimp only at ha
      cases hlk : lookupKey tbl eid with
      | some data =>
          rw [hlk] at ha
          dsimp only at ha
          by_cases hid : id = eid
          · subst hid
            rw [lookupKey_eraseKey_self] at ha
            exact Option.noConfusion ha
          · rw [lookupKey_eraseKey_ne _ _ _ hid] at ha
            obtain rfl := Option.some_inj.1 (hb.symm.trans ha)
            exact isReadMonoStep_refl _
      | none =>
          rw [hlk] at ha
          dsimp only at ha
          obtain rfl := Option.some_inj.1 (hb.symm.trans ha)
          exact isReadMonoStep_refl _
  | markRead eid version =>
      unfold applyUpdateOp performMarkAsRead at ha
      dsimp only at ha
      cases hlk : lookupKey tbl eid with
      | none =>
          rw [hlk] at ha
          dsimp only at ha
          obtain rfl := Option.some_inj.1 (hb.symm.trans ha)
          exact isReadMonoStep_refl _
      | some extensionData =>
          rw [hlk] at ha
          dsimp only at ha
          have hgen : ∀ result : List ExtensionVersionInfo × Bool,
              isReadMonoStep extensionData.updateHistory result.1 →
              lookupKey (if result.2 = true then
                  setKey tbl eid { extensionData with updateHistory := result.1 }
                else tbl) id = some rec' →
              isReadMonoStep rec.updateHistory rec'.updateHistory := by
            intro result hmono ha2
            split at ha2
            · by_cases hid : id = eid
              · subst hid
                have hre : extensionData = rec := Option.some_inj.1 (hlk.symm.trans hb)
                subst hre
                rw [lookupKey_setKey_self] at ha2
                obtain rfl := (Option.some_inj.1 ha2).symm
                exact hmono
              · rw [lookupKey_setKey_ne _ _ _ _ hid] at ha2
                obtain rfl := Option.some_inj.1 (hb.symm.trans ha2)
                exact isReadMonoStep_refl _
            · obtain rfl := Option.some_inj.1 (hb.symm.trans ha2)
              exact isReadMonoStep_refl _
          cases version with
          | some v => exact hgen _ (isReadMonoStep_markVersion v _) ha
          | none => exact hgen _ (isReadMonoStep_markLast _) ha
  | markAll =>
      unfold applyUpdateOp performMarkAllAsRead at ha
      dsimp only at ha
      rw [lookupKey_markAllValues, hb] at ha
      simp only [Option.map_some'] at ha
      obtain rfl := (Option.some_inj.1 ha).symm
      exact isReadMonoStep_markAll _

/-- Witness for C7: one `markAllAsRead` step on a one-record table, with the
before/after records made explicit. -/
theorem markRead_monotonicity_witness :
    isReadMonoStep recA.updateHistory
      [{ version := "1.0.0", detectedTimestampMs := 10, isRead := some true }] :=
  markRead_monotonicity [(extIdA, recA)] UpdateOp.markAll extIdA recA
    { currentVersion := "1.0.0"
      updateHistory := [{ version := "1.0.0", detectedTimestampMs := 10,
                          isRead := some true }] }
    (by rfl) (by rfl)

/-! ## History bound under repeated distinct detections (C3) -/

/-- A sequence of `recordDetectedVersion`/`saveInstalledInfo` calls applied to
the empty table: each step re-reads the (accumulated) backing table and
runs `performSave` with its extension info and call time. -/
def runSaves (steps : List (ExtensionInfo × Int)) : UpdateTable :=
  steps.foldl (fun t s => performSave t s.1 s.2) []

theorem drop_snoc_drop {α : Type} (xs : List α) (v : α) (n : Nat) (hn : 0 < n) :
    ((xs.drop (xs.length - n)) ++ [v]).drop ((xs.drop (xs.length - n)).length + 1 - n)
      = (xs ++ [v]).drop ((xs.length + 1) - n) := by
  rcases le_or_lt xs.length n with hle | hlt
  · rw [Nat.sub_eq_zero_of_le hle, List.drop_zero]
  · have hlen : (xs.drop (xs.length - n)).length = n := by
      rw [List.length_drop]
      omega
    rw [hlen, show n + 1 - n = 1 from by omega]
    rw [List.drop_append_eq_append_drop, List.drop_append_eq_append_drop]
    rw [List.drop_drop]
    have h1 : xs.length - n + 1 = xs.length + 1 - n := by omega
    have h2 : (1 : Nat) - (xs.drop (xs.length - n)).length = 0 := by
      rw [hlen]
      omega
    have h3 : xs.length + 1 - n - xs.length = 0 := by omega
    rw [h1, h2, h3]

theorem runSaves_characterization (eid : String) (steps : List (ExtensionInfo × Int))
    (hne : steps ≠ [])
    (hid : ∀ t ∈ steps, t.1.id = eid)
    (hchain : List.Chain' Ne (steps.map (fun t => t.1.version))) :
    ∃ rec : ExtensionRecord, lookupKey (runSaves steps) eid = some rec ∧
      rec.updateHistory.map (fun e => e.version)
        = (steps.map (fun t => t.1.version)).drop
            (steps.length - MAX_HISTORY_ENTRIES) := by
  induction steps using List.reverseRecOn with
  | nil => exact absurd rfl hne
  | append_singleton l s ih =>
      have hsid : s.1.id = eid := hid s (by simp)
      have hfold : runSaves (l ++ [s]) = performSave (runSaves l) s.1 s.2 := by
        unfold runSaves
        rw [List.foldl_append]
        rfl
      by_cases hlne : l = []
      · subst hlne
        refine ⟨{ currentVersion := s.1.version
                  updateHistory := [{ version := s.1.version, detectedTimestampMs := s.2,
                                      infoSnapshot := some (buildInfoSnapshot s.1) }] },
                ?_, ?_⟩
        · rw [hfold]
          unfold performSave runSaves
          rw [hsid]
          dsimp only [List.foldl_nil]
          rw [show lookupKey ([] : UpdateTable) eid = none from rfl]
          exact lookupKey_setKey_self _ _ _
        · simp [MAX_HISTORY_ENTRIES]
      · have hlpos : 0 < l.length := List.length_pos.2 hlne
        have hchain_l : List.Chain' Ne (l.map (fun t => t.1.version)) := by
          rw [List.map_append] at hchain
          exact (List.chain'_append.1 hchain).1
        obtain ⟨rec, hlook, hm⟩ :=
          ih hlne (fun x hx => hid x (List.mem_append_left _ hx)) hchain_l
        have hist_ne : rec.updateHistory ≠ [] := by
          intro h0
          rw [h0] at hm
          have hc := congrArg List.length hm
          simp only [List.map_nil, List.length_nil, List.length_drop,
            List.length_map] at hc
          unfold MAX_HISTORY_ENTRIES at hc
          omega
        have hgl : rec.updateHistory.getLast?
            = some (rec.updateHistory.getLast hist_ne) :=
          List.getLast?_eq_getLast _ hist_ne
        have hlastv : (l.map (fun t => t.1.version)).getLast?
            = some (rec.updateHistory.getLast hist_ne).version := by
          have h1 : ((l.map (fun t => t.1.version)).drop
              (l.length - MAX_HISTORY_ENTRIES)).getLast?
              = (l.map (fun t => t.1.version)).getLast? := by
            apply getLast?_drop
            rw [List.length_map]
            unfold MAX_HISTORY_ENTRIES
            omega
          have h2 : (rec.updateHistory.map (fun e => e.version)).getLast?
              = some (rec.updateHistory.getLast hist_ne).version := by
            rw [List.getLast?_map, hgl]
            rfl
          rw [← h1, ← hm]
          exact h2
        have hlink : (rec.updateHistory.getLast hist_ne).version ≠ s.1.version := by
          rw [List.map_append] at hchain
          exact (List.chain'_append.1 hchain).2.2 _ hlastv s.1.version (by simp)
        have hupd : updatedHistory rec.updateHistory s.1 s.2
            = rec.updateHistory ++
              [{ version := s.1.version, detectedTimestampMs := s.2,
                 isRead := none,
                 previousVersion := some (rec.updateHistory.getLast hist_ne).version,
                 infoSnapshot := some (buildInfoSnapshot s.1) }] := by
          unfold updatedHistory
          rw [hgl]
          dsimp only
          rw [if_neg hlink]
        have hps : runSaves (l ++ [s]) = setKey (runSaves l) eid
            { currentVersion := s.1.version
              updateHistory :=
                trimHistory (updatedHistory rec.updateHistory s.1 s.2) } := by
          rw [hfold]
          unfold performSave
          rw [hsid, hlook]
        refine ⟨_, by rw [hps]; exact lookupKey_setKey_self _ _ _, ?_⟩
        have hm' : rec.updateHistory.map (fun e => e.version)
            = (l.map (fun t => t.1.version)).drop
                ((l.map (fun t => t.1.version)).length - MAX_HISTORY_ENTRIES) := by
          rw [List.length_map]
          exact hm
        calc (trimHistory (updatedHistory rec.updateHistory s.1 s.2)).map
              (fun e => e.version)
            = ((updatedHistory rec.updateHistory s.1 s.2).map (fun e => e.version)).drop
                ((updatedHistory rec.updateHistory s.1 s.2).length
                  - MAX_HISTORY_ENTRIES) := by
              unfold trimHistory
              rw [List.map_drop]
          _ = ((rec.updateHistory.map (fun e => e.version)) ++ [s.1.version]).drop
                ((rec.updateHistory.map (fun e => e.version)).length + 1
                  - MAX_HISTORY_ENTRIES) := by
              rw [hupd, List.map_append, List.length_append, List.length_map]
              rfl
          _ = (((l.map (fun t => t.1.version)).drop
                  ((l.map (fun t => t.1.version)).length - MAX_HISTORY_ENTRIES))
                ++ [s.1.version]).drop
                (((l.map (fun t => t.1.version)).drop
                  ((l.map (fun t => t.1.version)).length
                    - MAX_HISTORY_ENTRIES)).length + 1 - MAX_HISTORY_ENTRIES) := by
              rw [hm']
          _ = ((l.map (fun t => t.1.version)) ++ [s.1.version]).drop
                ((l.map (fun t => t.1.version)).length + 1 - MAX_HISTORY_ENTRIES) :=
              drop_snoc_drop _ _ _ (by norm_num [MAX_HISTORY_ENTRIES])
          _ = ((l ++ [s]).map (fun t => t.1.version)).drop
                ((l ++ [s]).length - MAX_HISTORY_ENTRIES) := by
              rw [List.map_append, List.length_append, List.length_map]
              rfl

/-- **C3**: after more than `MAX_HISTORY_ENTRIES` (100) detections with
pairwise-distinct consecutive versions for one extension, the stored
record's history has length exactly 100 and its version sequence is
exactly the most recent 100 detected versions in detection order
(drop-oldest trimming). -/
theorem history_bound_after_many_saves (eid : String)
    (steps : List (ExtensionInfo × Int))
    (hid : ∀ t ∈ steps, t.1.id = eid)
    (hchain : List.Chain' Ne (steps.map (fun t => t.1.version)))
    (hlen : MAX_HISTORY_ENTRIES < steps.length) :
    ∃ rec : ExtensionRecord, lookupKey (runSaves steps) eid = some rec ∧
      rec.updateHistory.length = MAX_HISTORY_ENTRIES ∧
      rec.updateHistory.map (fun e => e.version)
        = (steps.map (fun t => t.1.version)).drop
            (steps.length - MAX_HISTORY_ENTRIES) := by
  have hne : steps ≠ [] := by
    intro h0
    rw [h0] at hlen
    simp at hlen
  obtain ⟨rec, hlook, hm⟩ := runSaves_characterization eid steps hne hid hchain
  refine ⟨rec, hlook, ?_, hm⟩
  have hc := congrArg List.length hm
  simp only [List.length_map, List.length_drop] at hc
  omega

/-- 101 detections of the pairwise-distinct versions `"0"`, `"1"`, …,
`"100"` for one extension. -/
def manySaveSteps : List (ExtensionInfo × Int) :=
  (List.range (MAX_HISTORY_ENTRIES + 1)).map
    (fun i => ({ id := "ext", name := "n", version := toString i }, 0))

/-- Witness for C3: the bound applied to 101 concrete distinct-version
detections. -/
theorem history_bound_after_many_saves_witness :
    ∃ rec : ExtensionRecord, lookupKey (runSaves manySaveSteps) "ext" = some rec ∧
      rec.updateHistory.length = MAX_HISTORY_ENTRIES ∧
      rec.updateHistory.map (fun e => e.version)
        = (manySaveSteps.map (fun t => t.1.version)).drop
            (manySaveSteps.length - MAX_HISTORY_ENTRIES) :=
  history_bound_after_many_saves "ext" manySaveSteps (by decide)
    (by rw [List.chain'_iff_get]; decide) (by decide)
